import Mathlib

/-!
Verification of the binary-heap package `guia-monticulos/heap` (file
`heap.go`) and its derived operations, against the repository's design
document.  Go slices of `T` are modelled as `List T`; slice mutation is
modelled by value-passing state (each operation returns the updated heap).
Machine `int` indices are modelled as `Nat` where the source keeps them
non-negative, and as `Int` where the source compares them with user input.
The external dependency `utils.Compare` (natural three-way comparison,
documented in `heap.go`: -1 if a < b, 0 if a == b, 1 if a > b) is
`utilsCompare` below.
-/

namespace GuiaHeap

/-- A binary heap: a contiguous 0-indexed element sequence together with a
three-way comparator, exactly the two fields of `Heap[T]` in `heap.go`. -/
structure Heap (T : Type) where
  elements : List T
  compare : T → T → Int

/-- Reading `elements[i]` on a Go slice; in-bounds accesses are the only
ones the source performs, so the default value never matters there. -/
def getE {T : Type} [Inhabited T] (l : List T) (i : Nat) : T :=
  l.getD i default

/-- The parallel assignment `m.elements[i], m.elements[j] = m.elements[j], m.elements[i]`. -/
def swapE {T : Type} [Inhabited T] (l : List T) (i j : Nat) : List T :=
  (l.set i (getE l j)).set j (getE l i)

/-- The natural three-way comparison `utils.Compare` on integers: -1 if
a < b, 0 if a == b, 1 if a > b (per the comparator contract documented in
`heap.go`). -/
def utilsCompare (a b : Int) : Int :=
  if a < b then -1 else if a > b then 1 else 0

/-- NewMinHeap: empty elements, natural ascending comparator. -/
def NewMinHeap : Heap Int :=
  { elements := [], compare := utilsCompare }

/-- The comparator installed by NewMaxHeap: `utils.Compare(b, a)`. -/
def maxCompare (a b : Int) : Int := utilsCompare b a

/-- NewMaxHeap: empty elements, inverted natural comparator. -/
def NewMaxHeap : Heap Int :=
  { elements := [], compare := maxCompare }

/-- NewGenericHeap: empty elements, caller-supplied comparator. -/
def NewGenericHeap {T : Type} (comp : T → T → Int) : Heap T :=
  { elements := [], compare := comp }

/-- Size returns the element count, `len(m.elements)`. -/
def Heap.Size {T : Type} (m : Heap T) : Nat :=
  m.elements.length

/-- The loop of `upHeap`: while `i > 0`, compute `parent := (i-1)/2`, stop
when `compare(elements[i], elements[parent]) > 0`, otherwise swap and
continue from `parent`.  The index strictly decreases each iteration, so
`fuel := i` iterations always suffice; the fuel-exhaustion branch is
unreachable from the entry point `upHeapL`. -/
def upHeapGo {T : Type} [Inhabited T] (cmp : T → T → Int) :
    Nat → List T → Nat → List T
  | _, l, 0 => l
  | 0, l, _ + 1 => l
  | fuel + 1, l, i + 1 =>
      let parent := i / 2
      if cmp (getE l (i + 1)) (getE l parent) > 0 then l
      else upHeapGo cmp fuel (swapE l (i + 1) parent) parent

/-- upHeap on the element list, starting at index `i`. -/
def upHeapL {T : Type} [Inhabited T] (cmp : T → T → Int) (l : List T) (i : Nat) : List T :=
  upHeapGo cmp i l i

/-- Insert appends the element and sifts it up from the last index. -/
def Heap.Insert {T : Type} [Inhabited T] (m : Heap T) (element : T) : Heap T :=
  { m with elements := upHeapL m.compare (m.elements ++ [element]) ((m.elements ++ [element]).length - 1) }

/-- One pass of the `downHeap` loop body: the two sequential `if`
statements electing `smallest` among `i`, `left = 2i+1`, `right = 2i+2`,
then either stop (`smallest == i`) or swap and continue from `smallest`.
The index strictly increases while it stays in bounds, so `fuel :=
l.length` iterations always suffice from index 0. -/
def downHeapGo {T : Type} [Inhabited T] (cmp : T → T → Int) :
    Nat → List T → Nat → List T
  | 0, l, _ => l
  | fuel + 1, l, i =>
      let left := 2 * i + 1
      let right := 2 * i + 2
      let s1 := if left < l.length ∧ cmp (getE l left) (getE l i) < 0 then left else i
      let s2 := if right < l.length ∧ cmp (getE l right) (getE l s1) < 0 then right else s1
      if s2 = i then l
      else downHeapGo cmp fuel (swapE l i s2) s2

/-- downHeap on the element list, starting at index `i`. -/
def downHeapL {T : Type} [Inhabited T] (cmp : T → T → Int) (l : List T) (i : Nat) : List T :=
  downHeapGo cmp l.length l i

/-- The error message of `Remove` on an empty heap (`errors.New("heap vacío")`),
standing for the spec's `EmptyContainer` error kind. -/
def emptyContainerMsg : String := "heap vacío"

/-- Remove: on an empty heap return the zero value and the error with the
heap unchanged; otherwise capture the root, move the last element to the
root, shrink by one, sift down from 0.  Returns ((value, error), heap
state after the call). -/
def Heap.Remove {T : Type} [Inhabited T] (m : Heap T) : (T × Option String) × Heap T :=
  if m.Size = 0 then ((default, some emptyContainerMsg), m)
  else
    let element := getE m.elements 0
    let l1 := m.elements.set 0 (getE m.elements (m.Size - 1))
    let l2 := l1.take (m.Size - 1)
    ((element, none), { m with elements := downHeapL m.compare l2 0 })

/-- NuevoMonticuloMaxDesdeArreglo: create a max-heap and insert each
element of the array in order. -/
def NuevoMonticuloMaxDesdeArreglo (arr : List Int) : Heap Int :=
  arr.foldl Heap.Insert NewMaxHeap

/-- The error message of `EnesimoMaximo` for an out-of-range rank
(`errors.New("n debe estar en el rango de 1 a M")`), standing for the
spec's `InvalidRank` error kind. -/
def invalidRankMsg : String := "n debe estar en el rango de 1 a M"

/-- The `make([]T, len(src))` + `copy(dst, src)` idiom of `EnesimoMaximo`:
a fresh list with the same entries, element by element. -/
def copyList {T : Type} [Inhabited T] (l : List T) : List T :=
  (List.range l.length).map (getE l)

/-- Loop of `EnesimoMaximo`: repeat `maximo, err = copiaHeap.Remove()` `n`
times, returning early with the error if a `Remove` fails. -/
def enesimoLoop {T : Type} [Inhabited T] : Heap T → Nat → T → T × Option String
  | _, 0, maximo => (maximo, none)
  | copia, k + 1, _ =>
      let r := copia.Remove
      match r.1.2 with
      | some e => (r.1.1, some e)
      | none => enesimoLoop r.2 k r.1.1

/-- EnesimoMaximo: reject ranks outside `[1, Size]`, otherwise remove `n`
times from a deep copy of the heap and return the last removed value.
The second component is the caller's heap after the call: the source only
reads `heap`, every mutation targets the copy. -/
def EnesimoMaximo (heap : Heap Int) (n : Int) : (Int × Option String) × Heap Int :=
  if n < 1 ∨ n > (heap.Size : Int) then ((0, some invalidRankMsg), heap)
  else
    let copiaHeap : Heap Int := { compare := heap.compare, elements := copyList heap.elements }
    (enesimoLoop copiaHeap n.toNat 0, heap)

/-- CombinarMonticulos: create a max-heap when `heap1` has more than one
element and `heap1.compare(elements[0], elements[1]) > 0`, otherwise a
min-heap, then insert every element of `heap1` and then of `heap2` in
stored order. -/
def CombinarMonticulos (heap1 heap2 : Heap Int) : Heap Int :=
  let combinedHeap :=
    if heap1.Size > 1 ∧ heap1.compare (getE heap1.elements 0) (getE heap1.elements 1) > 0 then
      NewMaxHeap
    else
      NewMinHeap
  let afterFirst := heap1.elements.foldl Heap.Insert combinedHeap
  heap2.elements.foldl Heap.Insert afterFirst

/-! ### Basic list-indexing lemmas -/

theorem getE_eq_getElem {T : Type} [Inhabited T] {l : List T} {i : Nat} (h : i < l.length) :
    getE l i = l[i] :=
  List.getD_eq_getElem l default h

theorem length_swapE {T : Type} [Inhabited T] (l : List T) (i j : Nat) :
    (swapE l i j).length = l.length := by
  simp [swapE]

theorem getE_set_self {T : Type} [Inhabited T] {l : List T} {i : Nat} (x : T)
    (h : i < l.length) : getE (l.set i x) i = x := by
  simp [getE, List.getElem?_set_self h]

theorem getE_set_ne {T : Type} [Inhabited T] {l : List T} {i j : Nat} (x : T)
    (h : i ≠ j) : getE (l.set i x) j = getE l j := by
  simp [getE, List.getElem?_set_ne h]

theorem getE_swapE_fst {T : Type} [Inhabited T] {l : List T} {i j : Nat}
    (hi : i < l.length) (hj : j < l.length) : getE (swapE l i j) i = getE l j := by
  by_cases hij : i = j
  · subst hij
    rw [swapE, getE_set_self _ (by simpa using hi)]
  · rw [swapE, getE_set_ne _ (fun h => hij h.symm), getE_set_self _ hi]

theorem getE_swapE_snd {T : Type} [Inhabited T] {l : List T} {i j : Nat}
    (hj : j < l.length) : getE (swapE l i j) j = getE l i := by
  rw [swapE, getE_set_self _ (by simpa using hj)]

theorem getE_swapE_other {T : Type} [Inhabited T] {l : List T} {i j k : Nat}
    (hki : k ≠ i) (hkj : k ≠ j) : getE (swapE l i j) k = getE l k := by
  rw [swapE, getE_set_ne _ (fun h => hkj h.symm), getE_set_ne _ (fun h => hki h.symm)]

theorem getE_append_lt {T : Type} [Inhabited T] {l : List T} (x : T) {j : Nat}
    (h : j < l.length) : getE (l ++ [x]) j = getE l j := by
  simp [getE, List.getElem?_append_left h]

theorem getE_take {T : Type} [Inhabited T] {l : List T} {k j : Nat} (h : j < k) :
    getE (l.take k) j = getE l j := by
  simp [getE, List.getElem?_take, h]

theorem getE_mem {T : Type} [Inhabited T] {l : List T} {i : Nat} (h : i < l.length) :
    getE l i ∈ l := by
  rw [getE_eq_getElem h]; exact List.getElem_mem h

theorem mem_iff_getE {T : Type} [Inhabited T] {l : List T} {x : T} :
    x ∈ l ↔ ∃ i, i < l.length ∧ getE l i = x := by
  constructor
  · intro hx
    rcases List.getElem_of_mem hx with ⟨n, hn, he⟩
    exact ⟨n, hn, by rw [getE_eq_getElem hn]; exact he⟩
  · rintro ⟨i, hi, rfl⟩
    exact getE_mem hi

/-! ### Permutation lemmas for the primitive mutations -/

theorem set_cons_perm {T : Type} [Inhabited T] :
    ∀ (l : List T) (k : Nat) (x : T), k < l.length →
      List.Perm (getE l k :: l.set k x) (x :: l)
  | [], k, x, h => by simp at h
  | a :: tl, 0, x, _ => by
      simpa [getE] using List.Perm.swap x a tl
  | a :: tl, k + 1, x, h => by
      have ih := set_cons_perm tl k x (by simpa using h)
      have h1 : List.Perm (getE tl k :: a :: tl.set k x) (a :: getE tl k :: tl.set k x) :=
        List.Perm.swap a (getE tl k) _
      have h2 : List.Perm (a :: getE tl k :: tl.set k x) (a :: x :: tl) := ih.cons a
      have h3 : List.Perm (a :: x :: tl) (x :: a :: tl) := List.Perm.swap x a tl
      simpa [getE] using (h1.trans h2).trans h3

theorem swapE_perm {T : Type} [Inhabited T] :
    ∀ (l : List T) (i j : Nat), i < l.length → j < l.length →
      List.Perm (swapE l i j) l
  | [], _, _, hi, _ => by simp at hi
  | a :: tl, 0, 0, _, _ => by simp [swapE, getE]
  | a :: tl, 0, j + 1, _, hj => by
      have hj' : j < tl.length := by simpa using hj
      have : swapE (a :: tl) 0 (j + 1) = getE tl j :: tl.set j a := by
        simp [swapE, getE]
      rw [this]
      exact set_cons_perm tl j a hj'
  | a :: tl, i + 1, 0, hi, _ => by
      have hi' : i < tl.length := by simpa using hi
      have : swapE (a :: tl) (i + 1) 0 = getE tl i :: tl.set i a := by
        simp [swapE, getE]
      rw [this]
      exact set_cons_perm tl i a hi'
  | a :: tl, i + 1, j + 1, hi, hj => by
      have ih := swapE_perm tl i j (by simpa using hi) (by simpa using hj)
      have : swapE (a :: tl) (i + 1) (j + 1) = a :: swapE tl i j := by
        simp [swapE, getE]
      rw [this]
      exact ih.cons a

/-! ### Comparator validity: the total-order contract for comparators -/

/-- A comparator is a valid total order in the three-way-sign sense
required by the design: antisymmetric sign (`compare a b ≤ 0` exactly when
`compare b a ≥ 0`) and transitivity of the induced `≤`. -/
def ValidCmp {T : Type} (cmp : T → T → Int) : Prop :=
  (∀ a b, cmp a b ≤ 0 ↔ 0 ≤ cmp b a) ∧
  (∀ a b c, cmp a b ≤ 0 → cmp b c ≤ 0 → cmp a c ≤ 0)

theorem ValidCmp.total {T : Type} {cmp : T → T → Int} (h : ValidCmp cmp) (a b : T) :
    cmp a b ≤ 0 ∨ cmp b a ≤ 0 := by
  by_cases hab : cmp a b ≤ 0
  · exact Or.inl hab
  · refine Or.inr ?_
    have := (h.1 a b).not.mp hab
    omega

theorem ValidCmp.rfl_le {T : Type} {cmp : T → T → Int} (h : ValidCmp cmp) (a : T) :
    cmp a a ≤ 0 := by
  rcases h.total a a with h' | h' <;> exact h'

theorem utilsCompare_le_iff {a b : Int} : utilsCompare a b ≤ 0 ↔ a ≤ b := by
  simp only [utilsCompare]
  split_ifs <;> omega

theorem maxCompare_le_iff {a b : Int} : maxCompare a b ≤ 0 ↔ b ≤ a := by
  simp only [maxCompare]
  exact utilsCompare_le_iff

theorem validCmp_utilsCompare : ValidCmp utilsCompare := by
  refine ⟨fun a b => ?_, fun a b c hab hbc => ?_⟩
  · simp only [utilsCompare]; split_ifs <;> omega
  · rw [utilsCompare_le_iff] at *
    omega

theorem validCmp_maxCompare : ValidCmp maxCompare := by
  refine ⟨fun a b => ?_, fun a b c hab hbc => ?_⟩
  · exact (validCmp_utilsCompare.1 b a)
  · rw [maxCompare_le_iff] at *
    omega

/-! ### The heap-order invariant -/

/-- Heap order, stated exactly as in the design document: for every index
`i` whose child index `c` in `2i+1, 2i+2` is a valid index into the
element sequence, `compare(elements[i], elements[c]) ≤ 0`. -/
def HeapOrdered {T : Type} [Inhabited T] (cmp : T → T → Int) (l : List T) : Prop :=
  ∀ i c, (c = 2 * i + 1 ∨ c = 2 * i + 2) → c < l.length →
    cmp (getE l i) (getE l c) ≤ 0

/-- Executable check of the heap-order invariant, walking every non-root
index and comparing it to its parent. -/
def heapOrderedB {T : Type} [Inhabited T] (cmp : T → T → Int) (l : List T) : Bool :=
  (List.range l.length).all fun c =>
    if c = 0 then true else decide (cmp (getE l ((c - 1) / 2)) (getE l c) ≤ 0)

theorem heapOrderedB_iff {T : Type} [Inhabited T] {cmp : T → T → Int} {l : List T} :
    heapOrderedB cmp l = true ↔ HeapOrdered cmp l := by
  simp only [heapOrderedB, List.all_eq_true, List.mem_range]
  constructor
  · intro h i c hc hlen
    have hi : (c - 1) / 2 = i := by omega
    have hc0 : c ≠ 0 := by omega
    have := h c hlen
    rw [if_neg hc0] at this
    rw [← hi]
    exact of_decide_eq_true this
  · intro h c hlen
    by_cases hc0 : c = 0
    · simp [hc0]
    · rw [if_neg hc0]
      refine decide_eq_true (h ((c - 1) / 2) c ?_ hlen)
      omega

theorem heapOrdered_nil {T : Type} [Inhabited T] (cmp : T → T → Int) :
    HeapOrdered cmp ([] : List T) := by
  intro i c _ hc
  simp at hc

/-! ### upHeap preserves the heap-order invariant -/

/-- Loop invariant of the sift-up: every parent-child pair is ordered
except possibly the pair whose child is the rising index `i`, and the
parent of `i` already dominates the children of `i`. -/
def UpInv {T : Type} [Inhabited T] (cmp : T → T → Int) (l : List T) (i : Nat) : Prop :=
  (∀ p c, (c = 2 * p + 1 ∨ c = 2 * p + 2) → c < l.length → c ≠ i →
      cmp (getE l p) (getE l c) ≤ 0) ∧
  (0 < i → ∀ c, (c = 2 * i + 1 ∨ c = 2 * i + 2) → c < l.length →
      cmp (getE l ((i - 1) / 2)) (getE l c) ≤ 0)

theorem upInv_swap {T : Type} [Inhabited T] {cmp : T → T → Int} (hv : ValidCmp cmp)
    {l : List T} {i : Nat} (hi0 : 0 < i) (hil : i < l.length)
    (hswap : cmp (getE l i) (getE l ((i - 1) / 2)) ≤ 0)
    (hinv : UpInv cmp l i) :
    UpInv cmp (swapE l i ((i - 1) / 2)) ((i - 1) / 2) := by
  set p := (i - 1) / 2 with hp
  have hpi : p < i := by omega
  have hpl : p < l.length := lt_trans hpi hil
  have hEi : getE (swapE l i p) i = getE l p := getE_swapE_fst hil hpl
  have hEp : getE (swapE l i p) p = getE l i := getE_swapE_snd hpl
  have hEo : ∀ k, k ≠ i → k ≠ p → getE (swapE l i p) k = getE l k := by
    intro k h1 h2
    exact getE_swapE_other h1 h2
  have hlen : (swapE l i p).length = l.length := length_swapE l i p
  constructor
  · intro q c hc hclen hcp
    rw [hlen] at hclen
    by_cases hci : c = i
    · subst hci
      have hq : q = p := by omega
      subst hq
      rw [hEp, hEi]
      exact hswap
    · rw [hEo c hci hcp]
      by_cases hqi : q = i
      · subst hqi
        rw [hEi]
        exact hinv.2 hi0 c hc hclen
      · by_cases hqp : q = p
        · subst hqp
          rw [hEp]
          exact hv.2 _ _ _ hswap (hinv.1 p c hc hclen hci)
        · rw [hEo q hqi hqp]
          exact hinv.1 q c hc hclen hci
  · intro hp0 c hc hclen
    rw [hlen] at hclen
    have hip : i = 2 * p + 1 ∨ i = 2 * p + 2 := by omega
    have hppi : (p - 1) / 2 ≠ i := by omega
    have hppp : (p - 1) / 2 ≠ p := by omega
    rw [hEo _ hppi hppp]
    have hpp_p : cmp (getE l ((p - 1) / 2)) (getE l p) ≤ 0 :=
      hinv.1 ((p - 1) / 2) p (by omega) hpl (by omega)
    by_cases hci : c = i
    · subst hci
      rw [hEi]
      exact hpp_p
    · have hcp' : c ≠ p := by omega
      rw [hEo c hci hcp']
      exact hv.2 _ _ _ hpp_p (hinv.1 p c hc hclen hci)

theorem upHeapGo_ordered {T : Type} [Inhabited T] {cmp : T → T → Int} (hv : ValidCmp cmp) :
    ∀ fuel (l : List T) i, i ≤ fuel → i < l.length → UpInv cmp l i →
      HeapOrdered cmp (upHeapGo cmp fuel l i) := by
  intro fuel
  induction fuel with
  | zero =>
    intro l i hif _ hinv
    interval_cases i
    show HeapOrdered cmp l
    intro q c hc hclen
    exact hinv.1 q c hc hclen (by omega)
  | succ f ih =>
    intro l i hif hil hinv
    match i with
    | 0 =>
      show HeapOrdered cmp l
      intro q c hc hclen
      exact hinv.1 q c hc hclen (by omega)
    | i' + 1 =>
      show HeapOrdered cmp
        (if cmp (getE l (i' + 1)) (getE l (i' / 2)) > 0 then l
         else upHeapGo cmp f (swapE l (i' + 1) (i' / 2)) (i' / 2))
      split_ifs with hgt
      · intro q c hc hclen
        by_cases hci : c = i' + 1
        · have hq : q = i' / 2 := by omega
          rcases hv.total (getE l q) (getE l c) with h | h
          · exact h
          · exfalso
            rw [hci, hq] at h
            omega
        · exact hinv.1 q c hc hclen hci
      · have hswap : cmp (getE l (i' + 1)) (getE l ((i' + 1 - 1) / 2)) ≤ 0 := by
          simpa using Int.not_lt.mp (fun h => hgt h)
        have := upInv_swap hv (by omega) hil hswap hinv
        have hres := ih (swapE l (i' + 1) ((i' + 1 - 1) / 2)) ((i' + 1 - 1) / 2)
          (by omega) (by rw [length_swapE]; omega) this
        simpa using hres

theorem Insert_ordered {T : Type} [Inhabited T] {m : Heap T} (hv : ValidCmp m.compare)
    (hord : HeapOrdered m.compare m.elements) (x : T) :
    HeapOrdered m.compare (m.Insert x).elements := by
  show HeapOrdered m.compare
    (upHeapL m.compare (m.elements ++ [x]) ((m.elements ++ [x]).length - 1))
  have hlen : (m.elements ++ [x]).length = m.elements.length + 1 := by simp
  rw [upHeapL, hlen]
  apply upHeapGo_ordered hv
  · omega
  · omega
  · constructor
    · intro q c hc hclen hcn
      rw [hlen] at hclen
      have hc' : c < m.elements.length := by omega
      have hq' : q < m.elements.length := by omega
      rw [getE_append_lt x hc', getE_append_lt x hq']
      exact hord q c hc hc'
    · intro h0 c hc hclen
      rw [hlen] at hclen
      omega

/-! ### downHeap preserves the heap-order invariant -/

/-- Loop invariant of the sift-down: every parent-child pair is ordered
except possibly the pairs whose parent is the sinking index `i`, and the
parent of `i` already dominates the children of `i`. -/
def DownInv {T : Type} [Inhabited T] (cmp : T → T → Int) (l : List T) (i : Nat) : Prop :=
  (∀ p c, (c = 2 * p + 1 ∨ c = 2 * p + 2) → c < l.length → p ≠ i →
      cmp (getE l p) (getE l c) ≤ 0) ∧
  (0 < i → ∀ c, (c = 2 * i + 1 ∨ c = 2 * i + 2) → c < l.length →
      cmp (getE l ((i - 1) / 2)) (getE l c) ≤ 0)

theorem downInv_swap {T : Type} [Inhabited T] {cmp : T → T → Int}
    {l : List T} {i s : Nat}
    (hs_child : s = 2 * i + 1 ∨ s = 2 * i + 2) (hsl : s < l.length)
    (hsi : cmp (getE l s) (getE l i) ≤ 0)
    (hso : ∀ o, (o = 2 * i + 1 ∨ o = 2 * i + 2) → o ≠ s → o < l.length →
      cmp (getE l s) (getE l o) ≤ 0)
    (hinv : DownInv cmp l i) :
    DownInv cmp (swapE l i s) s := by
  have his : i < s := by omega
  have hil : i < l.length := lt_trans his hsl
  have hEi : getE (swapE l i s) i = getE l s := getE_swapE_fst hil hsl
  have hEs : getE (swapE l i s) s = getE l i := getE_swapE_snd hsl
  have hEo : ∀ k, k ≠ i → k ≠ s → getE (swapE l i s) k = getE l k := by
    intro k h1 h2
    exact getE_swapE_other h1 h2
  have hlen : (swapE l i s).length = l.length := length_swapE l i s
  constructor
  · intro q c hc hclen hqs
    rw [hlen] at hclen
    by_cases hqi : q = i
    · subst hqi
      rw [hEi]
      by_cases hcs : c = s
      · subst hcs
        rw [hEs]
        exact hsi
      · rw [hEo c (by omega) hcs]
        exact hso c hc hcs hclen
    · rw [hEo q hqi hqs]
      by_cases hci : c = i
      · rw [hci, hEi]
        have hi0 : 0 < i := by omega
        have hq : q = (i - 1) / 2 := by omega
        rw [hq]
        exact hinv.2 hi0 s hs_child hsl
      · by_cases hcs : c = s
        · exfalso
          omega
        · rw [hEo c hci hcs]
          exact hinv.1 q c hc hclen hqi
  · intro _ c hc hclen
    rw [hlen] at hclen
    have hps : (s - 1) / 2 = i := by omega
    rw [hps, hEi, hEo c (by omega) (by omega)]
    exact hinv.1 s c hc hclen (by omega)

theorem downHeapGo_ordered {T : Type} [Inhabited T] {cmp : T → T → Int} (hv : ValidCmp cmp) :
    ∀ fuel (l : List T) i, l.length ≤ fuel + i → DownInv cmp l i →
      HeapOrdered cmp (downHeapGo cmp fuel l i) := by
  intro fuel
  induction fuel with
  | zero =>
    intro l i hfi hinv
    show HeapOrdered cmp l
    intro p c hc hclen
    exact hinv.1 p c hc hclen (by omega)
  | succ f ih =>
    intro l i hfi hinv
    by_cases hA : 2 * i + 1 < l.length ∧ cmp (getE l (2 * i + 1)) (getE l i) < 0
    · by_cases hB : 2 * i + 2 < l.length ∧ cmp (getE l (2 * i + 2)) (getE l (2 * i + 1)) < 0
      · have heq : downHeapGo cmp (f + 1) l i =
            downHeapGo cmp f (swapE l i (2 * i + 2)) (2 * i + 2) := by
          simp only [downHeapGo, if_pos hA, if_pos hB, if_neg (show ¬(2 * i + 2 = i) by omega)]
        rw [heq]
        apply ih
        · rw [length_swapE]; omega
        · refine downInv_swap (Or.inr rfl) hB.1 ?_ ?_ hinv
          · exact hv.2 _ _ _ (Int.le_of_lt hB.2) (Int.le_of_lt hA.2)
          · intro o ho hos hol
            have : o = 2 * i + 1 := by omega
            subst this
            exact Int.le_of_lt hB.2
      · have heq : downHeapGo cmp (f + 1) l i =
            downHeapGo cmp f (swapE l i (2 * i + 1)) (2 * i + 1) := by
          simp only [downHeapGo, if_pos hA, if_neg hB, if_neg (show ¬(2 * i + 1 = i) by omega)]
        rw [heq]
        apply ih
        · rw [length_swapE]; omega
        · refine downInv_swap (Or.inl rfl) hA.1 (Int.le_of_lt hA.2) ?_ hinv
          intro o ho hos hol
          have : o = 2 * i + 2 := by omega
          subst this
          have hge : 0 ≤ cmp (getE l (2 * i + 2)) (getE l (2 * i + 1)) := by
            rcases not_and_or.mp hB with h | h
            · exact absurd hol h
            · omega
          exact (hv.1 _ _).mpr hge
    · by_cases hB : 2 * i + 2 < l.length ∧ cmp (getE l (2 * i + 2)) (getE l i) < 0
      · have heq : downHeapGo cmp (f + 1) l i =
            downHeapGo cmp f (swapE l i (2 * i + 2)) (2 * i + 2) := by
          simp only [downHeapGo, if_neg hA, if_pos hB, if_neg (show ¬(2 * i + 2 = i) by omega)]
        rw [heq]
        apply ih
        · rw [length_swapE]; omega
        · refine downInv_swap (Or.inr rfl) hB.1 (Int.le_of_lt hB.2) ?_ hinv
          intro o ho hos hol
          have : o = 2 * i + 1 := by omega
          subst this
          have hge : 0 ≤ cmp (getE l (2 * i + 1)) (getE l i) := by
            rcases not_and_or.mp hA with h | h
            · exact absurd hol h
            · omega
          exact hv.2 _ _ _ (Int.le_of_lt hB.2) ((hv.1 _ _).mpr hge)
      · have heq : downHeapGo cmp (f + 1) l i = l := by
          simp only [downHeapGo, if_neg hA, if_neg hB, if_pos rfl, if_true]
        rw [heq]
        intro p c hc hclen
        by_cases hpi : p = i
        · rw [hpi] at hc ⊢
          have hge : 0 ≤ cmp (getE l c) (getE l i) := by
            rcases hc with hc | hc
            · subst hc
              rcases not_and_or.mp hA with h | h
              · exact absurd hclen h
              · omega
            · subst hc
              rcases not_and_or.mp hB with h | h
              · exact absurd hclen h
              · omega
          exact (hv.1 _ _).mpr hge
        · exact hinv.1 p c hc hclen hpi

/-! ### Multiset preservation of the mutations -/

theorem upHeapGo_perm {T : Type} [Inhabited T] (cmp : T → T → Int) :
    ∀ fuel (l : List T) i, i < l.length → List.Perm (upHeapGo cmp fuel l i) l := by
  intro fuel
  induction fuel with
  | zero =>
    intro l i _
    match i with
    | 0 => exact List.Perm.refl l
    | _ + 1 => exact List.Perm.refl l
  | succ f ih =>
    intro l i hil
    match i with
    | 0 => exact List.Perm.refl l
    | i' + 1 =>
      show List.Perm
        (if cmp (getE l (i' + 1)) (getE l (i' / 2)) > 0 then l
         else upHeapGo cmp f (swapE l (i' + 1) (i' / 2)) (i' / 2)) l
      split_ifs with hgt
      · exact List.Perm.refl l
      · have hp : i' / 2 < l.length := by omega
        have h1 := ih (swapE l (i' + 1) (i' / 2)) (i' / 2) (by rw [length_swapE]; omega)
        exact h1.trans (swapE_perm l (i' + 1) (i' / 2) hil hp)

theorem upHeapL_perm {T : Type} [Inhabited T] (cmp : T → T → Int) (l : List T) (i : Nat)
    (h : i < l.length) : List.Perm (upHeapL cmp l i) l :=
  upHeapGo_perm cmp i l i h

theorem Insert_perm {T : Type} [Inhabited T] (m : Heap T) (x : T) :
    List.Perm (m.Insert x).elements (m.elements ++ [x]) := by
  show List.Perm (upHeapL m.compare (m.elements ++ [x]) ((m.elements ++ [x]).length - 1)) _
  apply upHeapL_perm
  simp

theorem Insert_size {T : Type} [Inhabited T] (m : Heap T) (x : T) :
    (m.Insert x).Size = m.Size + 1 := by
  have h := (Insert_perm m x).length_eq
  simp only [Heap.Size]
  rw [h]
  simp

theorem Insert_compare {T : Type} [Inhabited T] (m : Heap T) (x : T) :
    (m.Insert x).compare = m.compare := rfl

theorem downHeapGo_perm {T : Type} [Inhabited T] (cmp : T → T → Int) :
    ∀ fuel (l : List T) i, List.Perm (downHeapGo cmp fuel l i) l := by
  intro fuel
  induction fuel with
  | zero => intro l i; exact List.Perm.refl l
  | succ f ih =>
    intro l i
    by_cases hA : 2 * i + 1 < l.length ∧ cmp (getE l (2 * i + 1)) (getE l i) < 0
    · by_cases hB : 2 * i + 2 < l.length ∧ cmp (getE l (2 * i + 2)) (getE l (2 * i + 1)) < 0
      · have heq : downHeapGo cmp (f + 1) l i =
            downHeapGo cmp f (swapE l i (2 * i + 2)) (2 * i + 2) := by
          simp only [downHeapGo, if_pos hA, if_pos hB, if_neg (show ¬(2 * i + 2 = i) by omega)]
        rw [heq]
        exact (ih _ _).trans (swapE_perm l i (2 * i + 2) (by omega) hB.1)
      · have heq : downHeapGo cmp (f + 1) l i =
            downHeapGo cmp f (swapE l i (2 * i + 1)) (2 * i + 1) := by
          simp only [downHeapGo, if_pos hA, if_neg hB, if_neg (show ¬(2 * i + 1 = i) by omega)]
        rw [heq]
        exact (ih _ _).trans (swapE_perm l i (2 * i + 1) (by omega) hA.1)
    · by_cases hB : 2 * i + 2 < l.length ∧ cmp (getE l (2 * i + 2)) (getE l i) < 0
      · have heq : downHeapGo cmp (f + 1) l i =
            downHeapGo cmp f (swapE l i (2 * i + 2)) (2 * i + 2) := by
          simp only [downHeapGo, if_neg hA, if_pos hB, if_neg (show ¬(2 * i + 2 = i) by omega)]
        rw [heq]
        exact (ih _ _).trans (swapE_perm l i (2 * i + 2) (by omega) hB.1)
      · have heq : downHeapGo cmp (f + 1) l i = l := by
          simp only [downHeapGo, if_neg hA, if_neg hB, if_pos rfl, if_true]
        rw [heq]

theorem downHeapL_perm {T : Type} [Inhabited T] (cmp : T → T → Int) (l : List T) (i : Nat) :
    List.Perm (downHeapL cmp l i) l :=
  downHeapGo_perm cmp l.length l i

/-- The tail of a non-empty list is a permutation of its last element
consed onto the list with its last element dropped. -/
theorem perm_last_cons_dropLast {T : Type} [Inhabited T] :
    ∀ (l : List T), l ≠ [] → List.Perm l (getE l (l.length - 1) :: l.dropLast)
  | [], h => absurd rfl h
  | [x], _ => by simp [getE]
  | x :: y :: r, _ => by
      have ih := perm_last_cons_dropLast (y :: r) (by simp)
      have h1 : List.Perm (x :: y :: r)
          (x :: getE (y :: r) ((y :: r).length - 1) :: (y :: r).dropLast) := ih.cons x
      have h2 := List.Perm.swap (getE (y :: r) ((y :: r).length - 1)) x (y :: r).dropLast
      have h3 := h1.trans h2
      have hg : getE (x :: y :: r) ((x :: y :: r).length - 1)
          = getE (y :: r) ((y :: r).length - 1) := by
        simp [getE]
      rw [hg]
      simpa using h3

/-- The element list before `Remove` is a permutation of the root consed
onto the shrunken, root-overwritten list that `Remove` sifts down. -/
theorem remove_base_perm {T : Type} [Inhabited T] (l : List T) (h : l ≠ []) :
    List.Perm l
      (getE l 0 :: ((l.set 0 (getE l (l.length - 1))).take (l.length - 1))) := by
  match l, h with
  | [x], _ => simp [getE]
  | x :: y :: r, _ =>
    have h1 : (x :: y :: r).set 0 (getE (x :: y :: r) ((x :: y :: r).length - 1))
        = getE (y :: r) ((y :: r).length - 1) :: y :: r := by
      simp [getE]
    rw [h1]
    have h0 : getE (x :: y :: r) 0 = x := by simp [getE]
    rw [h0]
    have h2 : (getE (y :: r) ((y :: r).length - 1) :: y :: r).take ((x :: y :: r).length - 1)
        = getE (y :: r) ((y :: r).length - 1) :: (y :: r).dropLast := by
      have h3 : (x :: y :: r).length - 1 = r.length + 1 := by simp
      rw [h3, List.take_succ_cons, List.dropLast_eq_take]
      simp
    rw [h2]
    exact (perm_last_cons_dropLast (y :: r) (by simp)).cons x

theorem Remove_eq_of_zero {T : Type} [Inhabited T] (m : Heap T) (h : m.Size = 0) :
    m.Remove = ((default, some emptyContainerMsg), m) := by
  simp only [Heap.Remove, if_pos h]

theorem Remove_eq_of_pos {T : Type} [Inhabited T] (m : Heap T) (h : ¬(m.Size = 0)) :
    m.Remove = ((getE m.elements 0, none),
      { m with elements := downHeapL m.compare ((m.elements.set 0 (getE m.elements (m.Size - 1))).take (m.Size - 1)) 0 }) := by
  simp only [Heap.Remove, if_neg h]

theorem Remove_perm {T : Type} [Inhabited T] (m : Heap T) (h : 0 < m.Size) :
    List.Perm m.elements ((m.Remove).1.1 :: (m.Remove).2.elements) := by
  have hne : m.elements ≠ [] := by
    intro he
    simp [Heap.Size, he] at h
  rw [Remove_eq_of_pos m (by omega)]
  refine (remove_base_perm m.elements hne).trans ?_
  exact List.Perm.cons _ (downHeapL_perm _ _ _).symm

theorem Remove_size {T : Type} [Inhabited T] (m : Heap T) (h : 0 < m.Size) :
    (m.Remove).2.Size = m.Size - 1 := by
  have hp := (Remove_perm m h).length_eq
  simp only [Heap.Size] at *
  simp only [List.length_cons] at hp
  omega

theorem Remove_compare {T : Type} [Inhabited T] (m : Heap T) :
    (m.Remove).2.compare = m.compare := by
  by_cases h : m.Size = 0
  · rw [Remove_eq_of_zero m h]
  · rw [Remove_eq_of_pos m h]

theorem Remove_root {T : Type} [Inhabited T] (m : Heap T) (h : 0 < m.Size) :
    (m.Remove).1.1 = getE m.elements 0 := by
  rw [Remove_eq_of_pos m (by omega)]

theorem Remove_err_none {T : Type} [Inhabited T] (m : Heap T) (h : 0 < m.Size) :
    (m.Remove).1.2 = none := by
  rw [Remove_eq_of_pos m (by omega)]

/-! ### Remove preserves the heap-order invariant -/

theorem Remove_ordered {T : Type} [Inhabited T] {m : Heap T} (hv : ValidCmp m.compare)
    (hord : HeapOrdered m.compare m.elements) :
    HeapOrdered m.compare (m.Remove).2.elements := by
  by_cases h : m.Size = 0
  · rw [Remove_eq_of_zero m h]
    exact hord
  · rw [Remove_eq_of_pos m h]
    show HeapOrdered m.compare
      (downHeapL m.compare ((m.elements.set 0 (getE m.elements (m.Size - 1))).take (m.Size - 1)) 0)
    rw [downHeapL]
    apply downHeapGo_ordered hv
    · omega
    · constructor
      · intro p c hc hclen hp0
        have hlen2 : ((m.elements.set 0 (getE m.elements (m.Size - 1))).take (m.Size - 1)).length
            = m.Size - 1 := by
          simp [Heap.Size]
        rw [hlen2] at hclen
        have hp_pos : 0 < p := by omega
        have hc_pos : 0 < c := by omega
        have hpc : p < c := by omega
        rw [getE_take (show c < m.Size - 1 by omega), getE_take (show p < m.Size - 1 by omega),
          getE_set_ne _ (by omega), getE_set_ne _ (by omega)]
        exact hord p c hc (by simp only [Heap.Size] at *; omega)
      · intro h0 _ _ _
        omega

/-! ### The root is the extreme element -/

theorem root_le_index {T : Type} [Inhabited T] {cmp : T → T → Int} (hv : ValidCmp cmp)
    {l : List T} (hord : HeapOrdered cmp l) :
    ∀ j, j < l.length → cmp (getE l 0) (getE l j) ≤ 0 := by
  intro j
  induction j using Nat.strong_induction_on with
  | _ j ih =>
    intro hj
    match j with
    | 0 => exact hv.rfl_le _
    | j' + 1 =>
      have hparent : cmp (getE l (j' / 2)) (getE l (j' + 1)) ≤ 0 :=
        hord (j' / 2) (j' + 1) (by omega) hj
      have hroot : cmp (getE l 0) (getE l (j' / 2)) ≤ 0 :=
        ih (j' / 2) (by omega) (by omega)
      exact hv.2 _ _ _ hroot hparent

theorem root_le_mem {T : Type} [Inhabited T] {cmp : T → T → Int} (hv : ValidCmp cmp)
    {l : List T} (hord : HeapOrdered cmp l) {x : T} (hx : x ∈ l) :
    cmp (getE l 0) x ≤ 0 := by
  rcases mem_iff_getE.mp hx with ⟨j, hj, rfl⟩
  exact root_le_index hv hord j hj

/-! ### Folding Insert over a list -/

theorem foldl_Insert_compare {T : Type} [Inhabited T] (xs : List T) (h : Heap T) :
    (xs.foldl Heap.Insert h).compare = h.compare := by
  induction xs generalizing h with
  | nil => rfl
  | cons x xs ih =>
    show ((x :: xs).foldl Heap.Insert h).compare = h.compare
    rw [List.foldl_cons, ih (h.Insert x), Insert_compare]

theorem foldl_Insert_ordered {T : Type} [Inhabited T] (xs : List T) (h : Heap T)
    (hv : ValidCmp h.compare) (hord : HeapOrdered h.compare h.elements) :
    HeapOrdered (xs.foldl Heap.Insert h).compare (xs.foldl Heap.Insert h).elements := by
  induction xs generalizing h with
  | nil => exact hord
  | cons x xs ih =>
    rw [List.foldl_cons]
    exact ih (h.Insert x) (by rw [Insert_compare]; exact hv) (Insert_ordered hv hord x)

theorem foldl_Insert_perm {T : Type} [Inhabited T] (xs : List T) (h : Heap T) :
    List.Perm (xs.foldl Heap.Insert h).elements (h.elements ++ xs) := by
  induction xs generalizing h with
  | nil => simp
  | cons x xs ih =>
    rw [List.foldl_cons]
    refine (ih (h.Insert x)).trans ?_
    have h1 := (Insert_perm h x).append_right xs
    refine h1.trans ?_
    rw [List.append_assoc]
    exact List.Perm.refl _

theorem foldl_Insert_size {T : Type} [Inhabited T] (xs : List T) (h : Heap T) :
    (xs.foldl Heap.Insert h).Size = h.Size + xs.length := by
  have := (foldl_Insert_perm xs h).length_eq
  simp only [Heap.Size] at *
  rw [this]
  simp

/-! ### Draining a heap by repeated Remove -/

/-- Repeatedly call Remove, collecting the removed roots, until the heap
is empty or the step budget runs out. -/
def drain {T : Type} [Inhabited T] (m : Heap T) : Nat → List T
  | 0 => []
  | k + 1 =>
      if m.Size = 0 then []
      else (m.Remove).1.1 :: drain (m.Remove).2 k

theorem drain_perm {T : Type} [Inhabited T] :
    ∀ (k : Nat) (m : Heap T), m.Size = k → List.Perm (drain m k) m.elements := by
  intro k
  induction k with
  | zero =>
    intro m hm
    have : m.elements = [] := List.length_eq_zero.mp hm
    rw [this]
    exact List.Perm.refl _
  | succ k ih =>
    intro m hm
    have hpos : ¬(m.Size = 0) := by omega
    show List.Perm (if m.Size = 0 then [] else (m.Remove).1.1 :: drain (m.Remove).2 k) m.elements
    rw [if_neg hpos]
    have hsz : (m.Remove).2.Size = k := by
      rw [Remove_size m (by omega)]
      omega
    exact ((ih (m.Remove).2 hsz).cons (m.Remove).1.1).trans (Remove_perm m (by omega)).symm

theorem drain_mem {T : Type} [Inhabited T] :
    ∀ (k : Nat) (m : Heap T) (x : T), x ∈ drain m k → x ∈ m.elements := by
  intro k
  induction k with
  | zero => intro m x hx; simp [drain] at hx
  | succ k ih =>
    intro m x hx
    show x ∈ m.elements
    rw [show drain m (k + 1)
        = (if m.Size = 0 then [] else (m.Remove).1.1 :: drain (m.Remove).2 k) from rfl] at hx
    by_cases h : m.Size = 0
    · rw [if_pos h] at hx
      simp at hx
    · rw [if_neg h] at hx
      have hperm := Remove_perm m (by omega)
      rcases List.mem_cons.mp hx with hx | hx
      · subst hx
        exact hperm.mem_iff.mpr (List.mem_cons_self _ _)
      · exact hperm.mem_iff.mpr (List.mem_cons_of_mem _ (ih (m.Remove).2 x hx))

theorem drain_pairwise {T : Type} [Inhabited T] :
    ∀ (k : Nat) (m : Heap T), ValidCmp m.compare → HeapOrdered m.compare m.elements →
      List.Pairwise (fun a b => m.compare a b ≤ 0) (drain m k) := by
  intro k
  induction k with
  | zero => intro m _ _; exact List.Pairwise.nil
  | succ k ih =>
    intro m hv hord
    show List.Pairwise _ (if m.Size = 0 then [] else (m.Remove).1.1 :: drain (m.Remove).2 k)
    by_cases h : m.Size = 0
    · rw [if_pos h]; exact List.Pairwise.nil
    · rw [if_neg h]
      refine List.Pairwise.cons ?_ ?_
      · intro y hy
        have hy' : y ∈ (m.Remove).2.elements := drain_mem k (m.Remove).2 y hy
        have hym : y ∈ m.elements :=
          (Remove_perm m (by omega)).mem_iff.mpr (List.mem_cons_of_mem _ hy')
        rw [Remove_root m (by omega)]
        exact root_le_mem hv hord hym
      · have hv' : ValidCmp (m.Remove).2.compare := by rw [Remove_compare]; exact hv
        have hord' : HeapOrdered (m.Remove).2.compare (m.Remove).2.elements := by
          rw [Remove_compare]
          exact Remove_ordered hv hord
        have := ih (m.Remove).2 hv' hord'
        rw [Remove_compare] at this
        exact this

/-! ### Heaps reachable through the public construction and mutation API -/

/-- Heaps obtainable from a constructor followed by any sequence of Insert
and Remove calls.  The generic constructor carries the design's
total-order contract on its comparator (behaviour is contractually
unspecified otherwise). -/
inductive Reachable : Heap Int → Prop
  | min : Reachable NewMinHeap
  | max : Reachable NewMaxHeap
  | generic (cmp : Int → Int → Int) (h : ValidCmp cmp) : Reachable (NewGenericHeap cmp)
  | insert (m : Heap Int) (x : Int) : Reachable m → Reachable (m.Insert x)
  | remove (m : Heap Int) : Reachable m → Reachable (m.Remove).2

theorem Reachable.valid {m : Heap Int} (hm : Reachable m) : ValidCmp m.compare := by
  induction hm with
  | min => exact validCmp_utilsCompare
  | max => exact validCmp_maxCompare
  | generic cmp h => exact h
  | insert m x _ ih => rw [Insert_compare]; exact ih
  | remove m _ ih => rw [Remove_compare]; exact ih

theorem Reachable.ordered {m : Heap Int} (hm : Reachable m) :
    HeapOrdered m.compare m.elements := by
  induction hm with
  | min => exact heapOrdered_nil _
  | max => exact heapOrdered_nil _
  | generic cmp h => exact heapOrdered_nil _
  | insert m x hr ih => exact Insert_ordered hr.valid ih x
  | remove m hr ih =>
    rw [Remove_compare]
    exact Remove_ordered hr.valid ih

/-! ### Claim theorems -/

/-- C1: for every heap created by any constructor (with the contractually
required total-order comparator) and evolved through any sequence of
Insert and Remove calls, every parent-child pair of the element sequence
is ordered under the heap's own comparator: for every index `i` whose
child `c ∈ {2i+1, 2i+2}` is a valid index, compare(elements[i],
elements[c]) ≤ 0. -/
theorem claim_C1_invariant_preservation (m : Heap Int) (hm : Reachable m) :
    HeapOrdered m.compare m.elements :=
  hm.ordered

/-- Witness for C1 at a concrete reachable heap: two inserts and a remove
on a max-heap. -/
theorem claim_C1_invariant_preservation_witness :
    HeapOrdered (((NewMaxHeap.Insert 3).Insert 7).Remove).2.compare
      (((NewMaxHeap.Insert 3).Insert 7).Remove).2.elements :=
  claim_C1_invariant_preservation _
    (Reachable.remove _ (Reachable.insert _ 7 (Reachable.insert _ 3 Reachable.max)))

/-- C6: Remove on an empty heap returns the zero value of T together with
the EmptyContainer error and leaves the heap unchanged (so Size stays 0);
Remove on a non-empty heap returns no error. -/
theorem claim_C6_remove_error_handling {T : Type} [Inhabited T] (m : Heap T) :
    (m.Size = 0 → m.Remove = ((default, some emptyContainerMsg), m)) ∧
    (0 < m.Size → (m.Remove).1.2 = none) :=
  ⟨fun h => Remove_eq_of_zero m h, fun h => Remove_err_none m h⟩

/-- Witness for C6: the empty min-heap errors and is unchanged, the heap
with one insert removes without error. -/
theorem claim_C6_remove_error_handling_witness :
    NewMinHeap.Remove = ((default, some emptyContainerMsg), NewMinHeap) ∧
    ((NewMinHeap.Insert 5).Remove).1.2 = none :=
  ⟨(claim_C6_remove_error_handling NewMinHeap).1 rfl,
   (claim_C6_remove_error_handling (NewMinHeap.Insert 5)).2 (by decide)⟩

/-- C7: EnesimoMaximo never mutates the caller's heap: after the call the
heap's Size and stored element order are both unchanged, whether the call
succeeds or fails. -/
theorem claim_C7_nth_largest_non_mutation (heap : Heap Int) (n : Int) :
    (EnesimoMaximo heap n).2.Size = heap.Size ∧
    (EnesimoMaximo heap n).2.elements = heap.elements := by
  unfold EnesimoMaximo
  split_ifs <;> exact ⟨rfl, rfl⟩

/-- C5: inserting 44, 29, 58, 2, 98, 11, 65, 3, 68, 99, in that order,
into a heap created by NewMaxHeap leaves the backing sequence equal to
[99, 98, 65, 58, 68, 11, 44, 2, 3, 29], and the 10 subsequent Remove
calls return 99, 98, 68, 65, 58, 44, 29, 11, 3, 2 in order. -/
theorem claim_C5_round_trip :
    ([44, 29, 58, 2, 98, 11, 65, 3, 68, 99].foldl Heap.Insert NewMaxHeap).elements
      = [99, 98, 65, 58, 68, 11, 44, 2, 3, 29] ∧
    drain ([44, 29, 58, 2, 98, 11, 65, 3, 68, 99].foldl Heap.Insert NewMaxHeap) 10
      = [99, 98, 68, 65, 58, 44, 29, 11, 3, 2] :=
  ⟨by decide, by decide⟩

/-- C10: NuevoMonticuloMaxDesdeArreglo on [3,1,6,5,2,4] yields a heap of
Size 6 whose element multiset is {1,2,3,4,5,6} and whose sequence is
max-heap-ordered; on the empty sequence it yields a heap of Size 0. -/
theorem claim_C10_bulk_build :
    (NuevoMonticuloMaxDesdeArreglo [3, 1, 6, 5, 2, 4]).Size = 6 ∧
    Multiset.ofList (NuevoMonticuloMaxDesdeArreglo [3, 1, 6, 5, 2, 4]).elements
      = Multiset.ofList [1, 2, 3, 4, 5, 6] ∧
    HeapOrdered (NuevoMonticuloMaxDesdeArreglo [3, 1, 6, 5, 2, 4]).compare
      (NuevoMonticuloMaxDesdeArreglo [3, 1, 6, 5, 2, 4]).elements ∧
    (NuevoMonticuloMaxDesdeArreglo []).Size = 0 :=
  ⟨by decide, by decide, heapOrderedB_iff.mp (by decide), by decide⟩

/-- C2 (evaluation at the repository's own test input,
TestCombinarMonticulos_MaxHeapYMaxHeap): merging the max-heap built by
inserting 7, 5, 3 with the max-heap built by inserting 6, 4, 2 produces
the element sequence [2, 4, 3, 7, 6, 5], and the comparison of its first
two stored elements under the result's own comparator is -1, NOT ≥ 0:
the merged result of two max-heaps is not max-ordered, contradicting the
test's assertion. -/
theorem claim_C2_merge_not_max_ordered :
    (CombinarMonticulos ([7, 5, 3].foldl Heap.Insert NewMaxHeap)
        ([6, 4, 2].foldl Heap.Insert NewMaxHeap)).elements = [2, 4, 3, 7, 6, 5] ∧
    (CombinarMonticulos ([7, 5, 3].foldl Heap.Insert NewMaxHeap)
        ([6, 4, 2].foldl Heap.Insert NewMaxHeap)).compare
      (getE (CombinarMonticulos ([7, 5, 3].foldl Heap.Insert NewMaxHeap)
        ([6, 4, 2].foldl Heap.Insert NewMaxHeap)).elements 0)
      (getE (CombinarMonticulos ([7, 5, 3].foldl Heap.Insert NewMaxHeap)
        ([6, 4, 2].foldl Heap.Insert NewMaxHeap)).elements 1) = -1 :=
  ⟨by decide, by decide⟩

/-- C3: for every pair of input heaps whose first input satisfies the
heap-order invariant under its own comparator (as every API-built heap
does), the guard compare(elements[0], elements[1]) > 0 in
CombinarMonticulos is false, so the max-heap branch is unreachable and
the merged heap is created with the natural ascending (min-heap)
comparator, regardless of the inputs' orderings. -/
theorem claim_C3_merge_branch_unreachable (h1 h2 : Heap Int)
    (hord : HeapOrdered h1.compare h1.elements) :
    (CombinarMonticulos h1 h2).compare = utilsCompare := by
  have hguard : ¬(h1.Size > 1 ∧
      h1.compare (getE h1.elements 0) (getE h1.elements 1) > 0) := by
    rintro ⟨hs, hgt⟩
    have h01 := hord 0 1 (Or.inl rfl) (by simp only [Heap.Size] at hs; omega)
    omega
  show (List.foldl Heap.Insert (List.foldl Heap.Insert
    (if h1.Size > 1 ∧ h1.compare (getE h1.elements 0) (getE h1.elements 1) > 0
     then NewMaxHeap else NewMinHeap) h1.elements) h2.elements).compare = utilsCompare
  rw [if_neg hguard, foldl_Insert_compare, foldl_Insert_compare]
  rfl

/-- Witness for C3: merging the two max-heaps of the repository's test
produces a heap carrying the natural ascending comparator. -/
theorem claim_C3_merge_branch_unreachable_witness :
    (CombinarMonticulos ([7, 5, 3].foldl Heap.Insert NewMaxHeap)
        ([6, 4, 2].foldl Heap.Insert NewMaxHeap)).compare = utilsCompare :=
  claim_C3_merge_branch_unreachable _ _ (heapOrderedB_iff.mp (by decide))

/-- C9: CombinarMonticulos produces a heap whose element multiset is
exactly the multiset union of the two inputs' elements (their sequences
concatenated, up to permutation) and whose Size is the sum of the inputs'
Sizes; the source only reads the input heaps (value semantics in this
model), so neither input is mutated. -/
theorem claim_C9_merge_union (h1 h2 : Heap Int) :
    (CombinarMonticulos h1 h2).Size = h1.Size + h2.Size ∧
    Multiset.ofList (CombinarMonticulos h1 h2).elements
      = Multiset.ofList h1.elements + Multiset.ofList h2.elements := by
  have hperm : List.Perm (CombinarMonticulos h1 h2).elements (h1.elements ++ h2.elements) := by
    show List.Perm (List.foldl Heap.Insert (List.foldl Heap.Insert
      (if h1.Size > 1 ∧ h1.compare (getE h1.elements 0) (getE h1.elements 1) > 0
       then NewMaxHeap else NewMinHeap) h1.elements) h2.elements).elements _
    have hbase : (if h1.Size > 1 ∧ h1.compare (getE h1.elements 0) (getE h1.elements 1) > 0
        then NewMaxHeap else NewMinHeap).elements = [] := by
      split_ifs <;> rfl
    refine (foldl_Insert_perm h2.elements _).trans ?_
    refine List.Perm.append ?_ (List.Perm.refl h2.elements)
    refine (foldl_Insert_perm h1.elements _).trans ?_
    rw [hbase]
    exact List.Perm.refl _
  constructor
  · have := hperm.length_eq
    simp only [Heap.Size]
    rw [this]
    simp
  · calc Multiset.ofList (CombinarMonticulos h1 h2).elements
        = Multiset.ofList (h1.elements ++ h2.elements) := Quot.sound hperm
      _ = Multiset.ofList h1.elements + Multiset.ofList h2.elements := by
          exact (Multiset.coe_add _ _)

/-- C4: for every list of integers inserted one at a time, repeatedly
calling Remove until the heap is empty yields exactly those elements
(as a permutation) in fully sorted order: ascending for a heap created by
NewMinHeap, descending for a heap created by NewMaxHeap. -/
theorem claim_C4_sorted_extraction (xs : List Int) :
    (List.Perm (drain (xs.foldl Heap.Insert NewMinHeap) (xs.foldl Heap.Insert NewMinHeap).Size) xs ∧
     List.Sorted (· ≤ ·)
       (drain (xs.foldl Heap.Insert NewMinHeap) (xs.foldl Heap.Insert NewMinHeap).Size)) ∧
    (List.Perm (drain (xs.foldl Heap.Insert NewMaxHeap) (xs.foldl Heap.Insert NewMaxHeap).Size) xs ∧
     List.Sorted (· ≥ ·)
       (drain (xs.foldl Heap.Insert NewMaxHeap) (xs.foldl Heap.Insert NewMaxHeap).Size)) := by
  constructor
  · have hcmp : (xs.foldl Heap.Insert NewMinHeap).compare = utilsCompare :=
      foldl_Insert_compare xs NewMinHeap
    have hv : ValidCmp (xs.foldl Heap.Insert NewMinHeap).compare := by
      rw [hcmp]; exact validCmp_utilsCompare
    have hord := foldl_Insert_ordered xs NewMinHeap validCmp_utilsCompare (heapOrdered_nil _)
    constructor
    · refine (drain_perm _ _ rfl).trans ?_
      simpa using foldl_Insert_perm xs NewMinHeap
    · have hp := drain_pairwise (xs.foldl Heap.Insert NewMinHeap).Size _ hv hord
      refine hp.imp ?_
      intro a b hab
      rw [hcmp] at hab
      exact utilsCompare_le_iff.mp hab
  · have hcmp : (xs.foldl Heap.Insert NewMaxHeap).compare = maxCompare :=
      foldl_Insert_compare xs NewMaxHeap
    have hv : ValidCmp (xs.foldl Heap.Insert NewMaxHeap).compare := by
      rw [hcmp]; exact validCmp_maxCompare
    have hord := foldl_Insert_ordered xs NewMaxHeap validCmp_maxCompare (heapOrdered_nil _)
    constructor
    · refine (drain_perm _ _ rfl).trans ?_
      simpa using foldl_Insert_perm xs NewMaxHeap
    · have hp := drain_pairwise (xs.foldl Heap.Insert NewMaxHeap).Size _ hv hord
      refine hp.imp ?_
      intro a b hab
      rw [hcmp] at hab
      exact maxCompare_le_iff.mp hab

/-! ### EnesimoMaximo: rank validation and the returned value -/

/-- The non-strict order induced by a three-way comparator. -/
def leOf (cmp : Int → Int → Int) (a b : Int) : Prop := cmp a b ≤ 0

instance (cmp : Int → Int → Int) : DecidableRel (leOf cmp) :=
  fun a b => inferInstanceAs (Decidable (cmp a b ≤ 0))

theorem copyList_eq {T : Type} [Inhabited T] (l : List T) : copyList l = l := by
  apply List.ext_getElem
  · simp [copyList]
  · intro i h1 h2
    have hr : i < (List.range l.length).length := by simpa [copyList] using h1
    show (List.map (getE l) (List.range l.length))[i] = l[i]
    rw [List.getElem_map, List.getElem_range]
    exact getE_eq_getElem h2

theorem drain_succ {T : Type} [Inhabited T] (m : Heap T) (k : Nat) (h : ¬(m.Size = 0)) :
    drain m (k + 1) = (m.Remove).1.1 :: drain (m.Remove).2 k := by
  show (if m.Size = 0 then [] else (m.Remove).1.1 :: drain (m.Remove).2 k) = _
  rw [if_neg h]

/-- The loop of EnesimoMaximo returns the k-th entry of the drain (the
k-th removed root) and no error, whenever 1 ≤ k ≤ Size. -/
theorem enesimoLoop_drain : ∀ (k : Nat) (m : Heap Int) (acc : Int),
    0 < k → k ≤ m.Size →
    enesimoLoop m k acc = (getE (drain m m.Size) (k - 1), none) := by
  intro k
  induction k with
  | zero => intro m acc h1 _; omega
  | succ k ih =>
    intro m acc h1 h2
    have hpos : 0 < m.Size := by omega
    have herr := Remove_err_none m hpos
    obtain ⟨s, hs⟩ : ∃ s, m.Size = s + 1 := ⟨m.Size - 1, by omega⟩
    have hsz : (m.Remove).2.Size = s := by rw [Remove_size m hpos]; omega
    show (match (m.Remove).1.2 with
          | some e => ((m.Remove).1.1, some e)
          | none => enesimoLoop (m.Remove).2 k (m.Remove).1.1)
        = (getE (drain m m.Size) (k + 1 - 1), none)
    rw [herr, hs, drain_succ m s (by omega)]
    match k, h1 with
    | 0, _ =>
      show ((m.Remove).1.1, none) = (getE ((m.Remove).1.1 :: drain (m.Remove).2 s) 0, none)
      rw [show getE ((m.Remove).1.1 :: drain (m.Remove).2 s) 0 = (m.Remove).1.1 from
        List.getD_cons_zero]
    | k' + 1, _ =>
      rw [ih (m.Remove).2 (m.Remove).1.1 (by omega) (by omega)]
      rw [show getE ((m.Remove).1.1 :: drain (m.Remove).2 s) (k' + 1 + 1 - 1)
          = getE (drain (m.Remove).2 s) k' from List.getD_cons_succ]
      rw [hsz]
      simp

/-- Draining an ordered heap produces exactly the insertion sort of its
elements under its own comparator, provided the comparator is a valid
antisymmetric total order. -/
theorem drain_eq_insertionSort (m : Heap Int) (hv : ValidCmp m.compare)
    (hord : HeapOrdered m.compare m.elements)
    (hanti : ∀ a b, m.compare a b ≤ 0 → m.compare b a ≤ 0 → a = b) :
    drain m m.Size = List.insertionSort (leOf m.compare) m.elements := by
  haveI : IsAntisymm Int (fun a b => m.compare a b ≤ 0) := ⟨hanti⟩
  haveI : IsTotal Int (fun a b => m.compare a b ≤ 0) := ⟨fun a b => hv.total a b⟩
  haveI : IsTrans Int (fun a b => m.compare a b ≤ 0) := ⟨fun a b c => hv.2 a b c⟩
  exact List.eq_of_perm_of_sorted
    ((drain_perm _ m rfl).trans (List.perm_insertionSort _ _).symm)
    (drain_pairwise _ m hv hord)
    (List.sorted_insertionSort _ _)

/-- C8: EnesimoMaximo returns the InvalidRank error exactly when n < 1 or
n > Size — in particular on an empty heap it fails for every n ≥ 1 — and
for 1 ≤ n ≤ Size on a well-formed heap it returns, with no error, the
n-th element in priority order (the (n-1)-indexed entry of the elements
sorted by the heap's own comparator); concretely, on the max-heap built
from 3,1,6,5,2,4, rank 3 returns 4 with no error and rank 7 fails with
InvalidRank. -/
theorem claim_C8_nth_largest_rank :
    (∀ (m : Heap Int) (n : Int),
      (EnesimoMaximo m n).1.2 = some invalidRankMsg ↔ (n < 1 ∨ (m.Size : Int) < n)) ∧
    (∀ (m : Heap Int) (n : Int), m.Size = 0 → 1 ≤ n →
      (EnesimoMaximo m n).1.2 = some invalidRankMsg) ∧
    (∀ (m : Heap Int) (n : Int), ValidCmp m.compare →
      HeapOrdered m.compare m.elements →
      (∀ a b, m.compare a b ≤ 0 → m.compare b a ≤ 0 → a = b) →
      1 ≤ n → n ≤ (m.Size : Int) →
      (EnesimoMaximo m n).1
        = (getE (List.insertionSort (leOf m.compare) m.elements) (n.toNat - 1), none)) ∧
    (EnesimoMaximo ([3, 1, 6, 5, 2, 4].foldl Heap.Insert NewMaxHeap) 3).1 = (4, none) ∧
    (EnesimoMaximo ([3, 1, 6, 5, 2, 4].foldl Heap.Insert NewMaxHeap) 7).1.2
      = some invalidRankMsg := by
  have hkey : ∀ (m : Heap Int) (n : Int), ¬(n < 1 ∨ n > (m.Size : Int)) →
      (EnesimoMaximo m n).1 = (getE (drain m m.Size) (n.toNat - 1), none) := by
    intro m n hrange
    show (if n < 1 ∨ n > (m.Size : Int) then ((0, some invalidRankMsg), m)
      else (enesimoLoop { compare := m.compare, elements := copyList m.elements } n.toNat 0,
        m)).1 = _
    rw [if_neg hrange, copyList_eq]
    show enesimoLoop m n.toNat 0 = _
    exact enesimoLoop_drain n.toNat m 0 (by omega) (by omega)
  refine ⟨?_, ?_, ?_, ?_, ?_⟩
  · intro m n
    constructor
    · intro herr
      by_contra hrange
      rw [hkey m n (by omega)] at herr
      simp at herr
    · intro hrange
      show (if n < 1 ∨ n > (m.Size : Int) then ((0, some invalidRankMsg), m) else _).1.2 = _
      rw [if_pos (by omega)]
  · intro m n hsz hn
    show (if n < 1 ∨ n > (m.Size : Int) then ((0, some invalidRankMsg), m) else _).1.2 = _
    rw [if_pos (by omega)]
  · intro m n hv hord hanti h1 h2
    rw [hkey m n (by omega), drain_eq_insertionSort m hv hord hanti]
  · decide
  · decide

/-- Witness for C8's general in-range clause at the test's max-heap with
rank 2: hypotheses discharged concretely. -/
theorem claim_C8_nth_largest_rank_witness :
    (EnesimoMaximo ([3, 1, 6, 5, 2, 4].foldl Heap.Insert NewMaxHeap) 2).1
      = (getE (List.insertionSort
          (leOf ([3, 1, 6, 5, 2, 4].foldl Heap.Insert NewMaxHeap).compare)
          ([3, 1, 6, 5, 2, 4].foldl Heap.Insert NewMaxHeap).elements)
          (Int.toNat 2 - 1), none) :=
  claim_C8_nth_largest_rank.2.2.1 ([3, 1, 6, 5, 2, 4].foldl Heap.Insert NewMaxHeap) 2
    validCmp_maxCompare (heapOrderedB_iff.mp (by decide))
    (fun a b hab hba => by
      rw [show ([3, 1, 6, 5, 2, 4].foldl Heap.Insert NewMaxHeap).compare = maxCompare from rfl,
        maxCompare_le_iff] at hab hba
      omega)
    (by omega) (by decide)

end GuiaHeap
